import Mathlib

set_option maxRecDepth 16000

/-!
Verification of the element tree and multi-line value codec of the
python-gedcom repository (gedcom/element/element.py and
gedcom/element/source.py).

Python strings are modelled as lists of characters (`PyStr`), so that
slicing, length and indexing are the usual list operations on code points.
Python integers are modelled as `Int`.  The in-place mutation of an element
performed by the source is modelled by functions returning the updated
element.  The two unbounded `while` loops of the source
(`Element.__add_concatenation` and the space back-off loop in
`Element.__line_length`) are modelled with explicit fuel where the source
gives no termination guarantee, and with a structurally decreasing counter
where it does; a `none` result means the loop did not finish within the
given fuel.
-/

/-- A Python string, as a list of its characters. -/
abbrev PyStr := List Char

/-- Shorthand turning a Lean string literal into a `PyStr`. -/
def pys (s : String) : PyStr := s.data

/-- Modelled from the spec: the reserved concatenation tag constant
`gedcom.tags.GEDCOM_TAG_CONCATENATION` (the `gedcom/tags.py` module is not
under src); the standard GEDCOM concatenation tag. -/
def GEDCOM_TAG_CONCATENATION : PyStr := pys "CONC"

/-- Modelled from the spec: the reserved continuation tag constant
`gedcom.tags.GEDCOM_TAG_CONTINUED` (the `gedcom/tags.py` module is not
under src); the standard GEDCOM continuation tag. -/
def GEDCOM_TAG_CONTINUED : PyStr := pys "CONT"

/-- Modelled from the spec: the repository tag constant
`gedcom.tags.GEDCOM_TAG_REPOSITORY` (the `gedcom/tags.py` module is not
under src); the standard GEDCOM repository tag. -/
def GEDCOM_TAG_REPOSITORY : PyStr := pys "REPO"

/-- A GEDCOM element: level, pointer, tag, value, per-node line terminator
and the ordered list of child elements (`Element.__init__` fields).  The
parent back-reference of the source is redundant in a tree value and is
not modelled. -/
inductive Element : Type where
  | mk (level : Int) (pointer tag value crlf : PyStr) (children : List Element) : Element

/-- `Element.get_level`. -/
def Element.get_level : Element → Int
  | .mk level _ _ _ _ _ => level

/-- `Element.get_pointer`. -/
def Element.get_pointer : Element → PyStr
  | .mk _ pointer _ _ _ _ => pointer

/-- `Element.get_tag`. -/
def Element.get_tag : Element → PyStr
  | .mk _ _ tag _ _ _ => tag

/-- `Element.get_value`. -/
def Element.get_value : Element → PyStr
  | .mk _ _ _ value _ _ => value

/-- The private field `Element.__crlf` (read directly by
`get_multi_line_value` on child elements). -/
def Element.get_crlf : Element → PyStr
  | .mk _ _ _ _ crlf _ => crlf

/-- `Element.get_child_elements`. -/
def Element.get_child_elements : Element → List Element
  | .mk _ _ _ _ _ children => children

/-- `Element.set_value`: replaces the value field. -/
def Element.set_value : Element → PyStr → Element
  | .mk level pointer tag _ crlf children, value =>
      .mk level pointer tag value crlf children

/-- In-place replacement of the child list, as done by the slice
assignment in `set_multi_line_value`. -/
def Element.with_children : Element → List Element → Element
  | .mk level pointer tag value crlf _, children =>
      .mk level pointer tag value crlf children

/-- `Element.add_child_element`: appends a child to the child list (the
parent back-reference it also sets is not modelled). -/
def Element.add_child_element (e : Element) (child : Element) : Element :=
  e.with_children (e.get_child_elements ++ [child])

/-- `str(level)` as used by `to_gedcom_string`. -/
def intStr (n : Int) : PyStr := (toString n).data

/-- The non-recursive body of `Element.to_gedcom_string`: builds
`level [SP pointer] SP tag [SP value] crlf`, then replaces the whole line
by the empty string when the level is negative. -/
def to_gedcom_line (e : Element) : PyStr :=
  match e with
  | .mk level pointer tag value crlf _ =>
    let result := intStr level
    let result := if pointer ≠ [] then result ++ [' '] ++ pointer else result
    let result := result ++ [' '] ++ tag
    let result := if value ≠ [] then result ++ [' '] ++ value else result
    let result := result ++ crlf
    if level < 0 then [] else result

mutual
/-- `Element.to_gedcom_string(recursive)`: the non-recursive line, followed
when `recursive` by the recursive rendering of every child in order. -/
def to_gedcom_string : Element → Bool → PyStr
  | .mk level pointer tag value crlf children, recursive =>
    let result := to_gedcom_line (.mk level pointer tag value crlf children)
    if recursive then result ++ render_children children else result
/-- The `for child_element in self.get_child_elements()` accumulation loop
inside `to_gedcom_string(True)`. -/
def render_children : List Element → PyStr
  | [] => []
  | child :: rest => to_gedcom_string child true ++ render_children rest
end

/-- `Element.__available_characters`: `255` minus the length of the
non-recursive rendering (terminator included), clamped at `0`. -/
def available_characters (e : Element) : Nat :=
  let element_characters := (to_gedcom_string e false).length
  if element_characters > 255 then 0 else 255 - element_characters

/-- The backward space scan of `Element.__line_length`:
`while spaces < available and line[available - spaces - 1] == ' ': spaces += 1`,
written with the structurally decreasing counter `available - spaces`. -/
def space_backoff_go (line : PyStr) (available : Nat) : Nat → Nat → Nat
  | 0, spaces => spaces
  | remaining + 1, spaces =>
      if line.get? (available - spaces - 1) = some ' ' then
        space_backoff_go line available remaining (spaces + 1)
      else spaces

/-- The space counter of `Element.__line_length`, started at `0`. -/
def space_backoff (line : PyStr) (available : Nat) : Nat :=
  space_backoff_go line available available 0

/-- `Element.__line_length`. -/
def line_length (e : Element) (line : PyStr) : Nat :=
  let total_characters := line.length
  let avail := available_characters e
  if total_characters ≤ avail then total_characters
  else
    let spaces := space_backoff line avail
    if spaces = avail then avail else avail - spaces

/-- `Element.__set_bounded_value`: truncates the value at the computed line
length and returns the updated element with that length. -/
def set_bounded_value (e : Element) (value : PyStr) : Element × Nat :=
  let n := line_length e value
  (e.set_value (value.take n), n)

/-- The child created by `Element.new_child_element(tag)`: level
`level + 1`, empty pointer and value, the parent terminator.  The subclass
chosen by the tag dispatch has identical fields, and the multi-line split
its constructor runs on the empty value is a no-op.  The append to the
parent that `new_child_element` also performs happens in
`add_bounded_child` below. -/
def new_child_element (e : Element) (tag : PyStr) : Element :=
  Element.mk (e.get_level + 1) [] tag [] e.get_crlf []

/-- `Element.__add_bounded_child`: creates the fresh child, bounds its
value in place, and returns the parent with the finished child appended
together with the bounded length. -/
def add_bounded_child (e : Element) (tag value : PyStr) : Element × Nat :=
  let child := new_child_element e tag
  let (child, n) := set_bounded_value child value
  (e.add_child_element child, n)

/-- The `while index < size` loop of `Element.__add_concatenation`, with
fuel: each fuel unit pays for one iteration test. -/
def add_concatenation_loop (fuel : Nat) (e : Element) (s : PyStr) (index : Nat) :
    Option Element :=
  match fuel with
  | 0 => none
  | fuel + 1 =>
    if index < s.length then
      let (e2, n) := add_bounded_child e GEDCOM_TAG_CONCATENATION (s.drop index)
      add_concatenation_loop fuel e2 s (index + n)
    else some e

/-- `Element.__add_concatenation`, starting the loop at index `0`. -/
def add_concatenation (fuel : Nat) (e : Element) (s : PyStr) : Option Element :=
  add_concatenation_loop fuel e s 0

/-- One character is a line boundary for `str.splitlines` (Python treats
these characters, plus the two-character sequence CR LF, as boundaries). -/
def is_line_break (c : Char) : Bool :=
  c = '\n' ∨ c = '\r' ∨ c = '\x0b' ∨ c = '\x0c' ∨ c = '\x1c' ∨ c = '\x1d' ∨
  c = '\x1e' ∨ c = '\x85' ∨ c = '\u2028' ∨ c = '\u2029'

/-- Accumulator pass for Python `str.splitlines`: `cur` is the reversed
current line; `skip_lf` records that the previous character was a carriage
return, so that a following line feed belongs to the same CR LF boundary
and is consumed silently; a trailing unterminated line is emitted only
when nonempty, matching `"".splitlines() == []`, `"a".splitlines() ==
["a"]` and `"a\n".splitlines() == ["a"]`. -/
def splitlines_go : PyStr → PyStr → Bool → List PyStr
  | [], cur, _ => if cur = [] then [] else [cur.reverse]
  | c :: rest, cur, skip_lf =>
      if skip_lf ∧ c = '\n' then splitlines_go rest cur false
      else if c = '\r' then cur.reverse :: splitlines_go rest [] true
      else if is_line_break c then cur.reverse :: splitlines_go rest [] false
      else splitlines_go rest (c :: cur) false

/-- Python `str.splitlines` (no `keepends`), as called by
`set_multi_line_value`. -/
def splitlines (s : PyStr) : List PyStr := splitlines_go s [] false

/-- The `for line in lines` loop of `Element.set_multi_line_value`: one
continuation child per further physical line, each followed by its
concatenation overflow chunks. -/
def set_continued_lines (fuel : Nat) (e : Element) : List PyStr → Option Element
  | [] => some e
  | line :: rest =>
    let (e2, n) := add_bounded_child e GEDCOM_TAG_CONTINUED line
    match add_concatenation fuel e2 (line.drop n) with
    | none => none
    | some e3 => set_continued_lines fuel e3 rest

/-- The slice assignment at the start of `Element.set_multi_line_value`:
removes every child carrying one of the two reserved tags, keeping all
other children in order. -/
def purge_reserved (e : Element) : Element :=
  e.with_children (e.get_child_elements.filter fun child =>
      ¬ (child.get_tag = GEDCOM_TAG_CONCATENATION ∨ child.get_tag = GEDCOM_TAG_CONTINUED))

/-- `Element.set_multi_line_value`: clears the value, purges existing
concatenation and continuation children, splits the new value into
physical lines, bounds the first line on the node itself, and generates
concatenation and continuation children for the rest. -/
def set_multi_line_value (fuel : Nat) (e : Element) (value : PyStr) : Option Element :=
  let e2 := purge_reserved (e.set_value [])
  match splitlines value with
  | [] => some e2
  | line :: rest =>
    let (e3, n) := set_bounded_value e2 line
    match add_concatenation fuel e3 (line.drop n) with
    | none => none
    | some e4 => set_continued_lines fuel e4 rest

/-- The loop body of `Element.get_multi_line_value`: the state is the pair
of the accumulated result and of `last_crlf`. -/
def mlv_step (st : PyStr × PyStr) (child : Element) : PyStr × PyStr :=
  if child.get_tag = GEDCOM_TAG_CONCATENATION then
    (st.1 ++ child.get_value, child.get_crlf)
  else if child.get_tag = GEDCOM_TAG_CONTINUED then
    (st.1 ++ st.2 ++ child.get_value, child.get_crlf)
  else st

/-- `Element.get_multi_line_value`: folds the concatenation and
continuation children over the own value, starting from the own
terminator. -/
def get_multi_line_value (e : Element) : PyStr :=
  (e.get_child_elements.foldl mlv_step (e.get_value, e.get_crlf)).1

/-- `Element.__init__(level, pointer, tag, value, crlf, multi_line)`: sets
the fields, starts with no children, and when `multi_line` immediately
applies `set_multi_line_value` to the value argument. -/
def element_init (fuel : Nat) (level : Int) (pointer tag value crlf : PyStr)
    (multi_line : Bool) : Option Element :=
  let e := Element.mk level pointer tag value crlf []
  if multi_line then set_multi_line_value fuel e value else some e

/-- `SourceElement.get_repository_pointer` from gedcom/element/source.py:
the state pair carries the local variables `repository_pointer` (returned)
and `reference` (assigned in the loop but never read; it starts unbound in
Python and is given a harmless empty placeholder here). -/
def get_repository_pointer (e : Element) : PyStr :=
  (e.get_child_elements.foldl
    (fun (st : PyStr × PyStr) child =>
      if child.get_tag = GEDCOM_TAG_REPOSITORY then (st.1, child.get_value) else st)
    ([], [])).1

/-- The contribution of one child to `get_multi_line_value` when the
running terminator is `t`: concatenation children append their value,
continuation children append the terminator and then their value, any
other child contributes nothing. -/
def contrib (t : PyStr) (c : Element) : PyStr :=
  if c.get_tag = GEDCOM_TAG_CONCATENATION then c.get_value
  else if c.get_tag = GEDCOM_TAG_CONTINUED then t ++ c.get_value
  else []

theorem cont_ne_conc : GEDCOM_TAG_CONTINUED ≠ GEDCOM_TAG_CONCATENATION := by decide

/-- Joining a list of lines with a separator: the first line, then the
separator followed by the line for every further line. -/
def joinWith (sep : PyStr) : List PyStr → PyStr
  | [] => []
  | [l] => l
  | l :: l2 :: ls => l ++ sep ++ joinWith sep (l2 :: ls)

/-- The length of the non-recursive rendering of an element with the line
terminator excluded from the count (the quantity the spec bounds by 255).
-/
def rendered_length (e : Element) : Nat :=
  (to_gedcom_string e false).length - e.get_crlf.length

/-- Stated from the wording of claim C5: the budget as 255 minus the
length of the line as it would serialize with an empty value — level,
optional pointer, tag and separators only, with no value and no terminator
contributing — clamped at 0. -/
def available_characters_claimed (e : Element) : Nat :=
  match e with
  | .mk level pointer tag _ _ _ =>
    let head_chars :=
      (intStr level ++ (if pointer ≠ [] then [' '] ++ pointer else []) ++ [' '] ++ tag).length
    if head_chars > 255 then 0 else 255 - head_chars

@[simp] theorem Element.get_level_mk (l : Int) (p t v c : PyStr) (k : List Element) :
    (Element.mk l p t v c k).get_level = l := rfl

@[simp] theorem Element.get_pointer_mk (l : Int) (p t v c : PyStr) (k : List Element) :
    (Element.mk l p t v c k).get_pointer = p := rfl

@[simp] theorem Element.get_tag_mk (l : Int) (p t v c : PyStr) (k : List Element) :
    (Element.mk l p t v c k).get_tag = t := rfl

@[simp] theorem Element.get_value_mk (l : Int) (p t v c : PyStr) (k : List Element) :
    (Element.mk l p t v c k).get_value = v := rfl

@[simp] theorem Element.get_crlf_mk (l : Int) (p t v c : PyStr) (k : List Element) :
    (Element.mk l p t v c k).get_crlf = c := rfl

@[simp] theorem Element.get_child_elements_mk (l : Int) (p t v c : PyStr) (k : List Element) :
    (Element.mk l p t v c k).get_child_elements = k := rfl

@[simp] theorem Element.set_value_mk (l : Int) (p t v c : PyStr) (k : List Element) (w : PyStr) :
    (Element.mk l p t v c k).set_value w = Element.mk l p t w c k := rfl

@[simp] theorem Element.with_children_mk (l : Int) (p t v c : PyStr) (k k2 : List Element) :
    (Element.mk l p t v c k).with_children k2 = Element.mk l p t v c k2 := rfl

@[simp] theorem Element.add_child_element_mk (l : Int) (p t v c : PyStr) (k : List Element)
    (x : Element) :
    (Element.mk l p t v c k).add_child_element x = Element.mk l p t v c (k ++ [x]) := rfl

theorem to_gedcom_string_false (e : Element) : to_gedcom_string e false = to_gedcom_line e := by
  cases e with
  | mk l p t v c k => simp [to_gedcom_string]

theorem to_gedcom_line_ignores_children (l : Int) (p t v c : PyStr) (k k2 : List Element) :
    to_gedcom_line (Element.mk l p t v c k) = to_gedcom_line (Element.mk l p t v c k2) := rfl

theorem available_characters_congr (e1 e2 : Element)
    (h : to_gedcom_line e1 = to_gedcom_line e2) :
    available_characters e1 = available_characters e2 := by
  simp [available_characters, to_gedcom_string_false, h]

theorem space_backoff_go_le (line : PyStr) (a : Nat) :
    ∀ remaining spaces : Nat, space_backoff_go line a remaining spaces ≤ spaces + remaining
  | 0, spaces => by simp [space_backoff_go]
  | remaining + 1, spaces => by
      rw [space_backoff_go]
      split
      · exact le_trans (space_backoff_go_le line a remaining (spaces + 1)) (by omega)
      · omega

theorem space_backoff_le (line : PyStr) (a : Nat) : space_backoff line a ≤ a := by
  simpa [space_backoff] using space_backoff_go_le line a a 0

/-- Loop invariant of the backward space scan: starting from a state where
all already-scanned positions hold spaces, the final counter extends the
scan, stays within the budget, covers only space positions, and stops
either at the budget or at a non-space character. -/
theorem space_backoff_go_spec (line : PyStr) (a : Nat) :
    ∀ remaining spaces, remaining + spaces = a →
      (∀ j, a - spaces ≤ j → j < a → line.get? j = some ' ') →
      spaces ≤ space_backoff_go line a remaining spaces ∧
      space_backoff_go line a remaining spaces ≤ a ∧
      (∀ j, a - space_backoff_go line a remaining spaces ≤ j → j < a →
        line.get? j = some ' ') ∧
      (space_backoff_go line a remaining spaces = a ∨
        line.get? (a - space_backoff_go line a remaining spaces - 1) ≠ some ' ')
  | 0, spaces, hsum, hscan => by
      have hs : spaces = a := by omega
      simp only [space_backoff_go]
      exact ⟨le_refl _, by omega, fun j h1 h2 => hscan j h1 h2, Or.inl hs⟩
  | remaining + 1, spaces, hsum, hscan => by
      rw [space_backoff_go]
      split
      case isTrue h =>
        have ih := space_backoff_go_spec line a remaining (spaces + 1) (by omega) ?_
        · exact ⟨le_trans (by omega) ih.1, ih.2.1, ih.2.2.1, ih.2.2.2⟩
        · intro j h1 h2
          by_cases hj : a - spaces ≤ j
          · exact hscan j hj h2
          · have : j = a - spaces - 1 := by omega
            rw [this]; exact h
      case isFalse h =>
        exact ⟨le_refl _, by omega, fun j h1 h2 => hscan j h1 h2, Or.inr h⟩

theorem space_backoff_spec (line : PyStr) (a : Nat) :
    space_backoff line a ≤ a ∧
    (∀ j, a - space_backoff line a ≤ j → j < a → line.get? j = some ' ') ∧
    (space_backoff line a = a ∨
      line.get? (a - space_backoff line a - 1) ≠ some ' ') := by
  have h := space_backoff_go_spec line a a 0 (by omega) (by omega)
  exact ⟨h.2.1, h.2.2.1, h.2.2.2⟩

theorem line_length_le_length (e : Element) (l : PyStr) : line_length e l ≤ l.length := by
  simp only [line_length]
  split_ifs <;> omega

theorem line_length_le_avail (e : Element) (l : PyStr) :
    line_length e l ≤ available_characters e := by
  simp only [line_length]
  split_ifs <;> omega

@[simp] theorem Element.get_level_add_child (e x : Element) :
    (e.add_child_element x).get_level = e.get_level := by cases e; rfl

@[simp] theorem Element.get_pointer_add_child (e x : Element) :
    (e.add_child_element x).get_pointer = e.get_pointer := by cases e; rfl

@[simp] theorem Element.get_tag_add_child (e x : Element) :
    (e.add_child_element x).get_tag = e.get_tag := by cases e; rfl

@[simp] theorem Element.get_value_add_child (e x : Element) :
    (e.add_child_element x).get_value = e.get_value := by cases e; rfl

@[simp] theorem Element.get_crlf_add_child (e x : Element) :
    (e.add_child_element x).get_crlf = e.get_crlf := by cases e; rfl

@[simp] theorem Element.get_children_add_child (e x : Element) :
    (e.add_child_element x).get_child_elements = e.get_child_elements ++ [x] := by
  cases e; rfl

@[simp] theorem new_child_element_add_child (e x : Element) (tag : PyStr) :
    new_child_element (e.add_child_element x) tag = new_child_element e tag := by
  cases e; rfl

@[simp] theorem new_child_element_set_value (e : Element) (v tag : PyStr) :
    new_child_element (e.set_value v) tag = new_child_element e tag := by
  cases e; rfl

theorem new_child_set_value (e : Element) (tag w : PyStr) :
    (new_child_element e tag).set_value w =
      Element.mk (e.get_level + 1) [] tag w e.get_crlf [] := by
  simp [new_child_element]

theorem foldl_mlv_step (t : PyStr) :
    ∀ (l : List Element) (r : PyStr),
      (∀ c ∈ l, (c.get_tag = GEDCOM_TAG_CONCATENATION ∨ c.get_tag = GEDCOM_TAG_CONTINUED) →
        c.get_crlf = t) →
      l.foldl mlv_step (r, t) = (r ++ (l.map (contrib t)).flatten, t)
  | [], r, _ => by simp
  | c :: l, r, h => by
      have hmem : ∀ x ∈ l,
          (x.get_tag = GEDCOM_TAG_CONCATENATION ∨ x.get_tag = GEDCOM_TAG_CONTINUED) →
          x.get_crlf = t := fun x hx => h x (List.mem_cons_of_mem _ hx)
      rw [List.foldl_cons]
      by_cases h1 : c.get_tag = GEDCOM_TAG_CONCATENATION
      · have hc : c.get_crlf = t := h c (List.mem_cons_self _ _) (Or.inl h1)
        rw [show mlv_step (r, t) c = (r ++ c.get_value, t) by simp [mlv_step, h1, hc]]
        rw [foldl_mlv_step t l (r ++ c.get_value) hmem]
        simp [contrib, h1]
      · by_cases h2 : c.get_tag = GEDCOM_TAG_CONTINUED
        · have hc : c.get_crlf = t := h c (List.mem_cons_self _ _) (Or.inr h2)
          have hco : contrib t c = t ++ c.get_value := by
            rw [contrib, if_neg h1, if_pos h2]
          have hms : mlv_step (r, t) c = (r ++ t ++ c.get_value, t) := by
            rw [mlv_step, if_neg h1, if_pos h2, hc]
          rw [hms, foldl_mlv_step t l (r ++ t ++ c.get_value) hmem]
          simp [hco, List.append_assoc]
        · rw [show mlv_step (r, t) c = (r, t) by simp [mlv_step, h1, h2]]
          rw [foldl_mlv_step t l r hmem]
          simp [contrib, h1, h2]

theorem joinWith_eq (sep : PyStr) :
    ∀ (l : PyStr) (ls : List PyStr),
      joinWith sep (l :: ls) = l ++ (ls.map fun x => sep ++ x).flatten
  | l, [] => by simp [joinWith]
  | l, l2 :: ls => by
      rw [joinWith, joinWith_eq sep l2 ls]
      simp only [List.map_cons, List.flatten_cons, List.append_assoc]

theorem take_drop_chunk (s : PyStr) (index n : Nat) :
    (s.drop index).take n ++ s.drop (index + n) = s.drop index := by
  have h := List.take_append_drop n (s.drop index)
  rw [List.drop_drop] at h
  exact h

/-- What a terminating run of the concatenation overflow loop does: it
appends a block of fresh concatenation children to the element, each
childless, one level down, with the parent terminator and a value no
longer than the fresh-child budget, and the concatenation of their values
is exactly the not-yet-consumed part of the string. -/
theorem add_concatenation_loop_spec :
    ∀ (fuel : Nat) (e : Element) (s : PyStr) (index : Nat) (e2 : Element),
      add_concatenation_loop fuel e s index = some e2 →
      e2.get_level = e.get_level ∧ e2.get_pointer = e.get_pointer ∧
      e2.get_tag = e.get_tag ∧ e2.get_value = e.get_value ∧ e2.get_crlf = e.get_crlf ∧
      ∃ gen,
        e2.get_child_elements = e.get_child_elements ++ gen ∧
        (∀ c ∈ gen, c.get_tag = GEDCOM_TAG_CONCATENATION ∧ c.get_crlf = e.get_crlf ∧
          c.get_level = e.get_level + 1 ∧ c.get_pointer = [] ∧ c.get_child_elements = [] ∧
          c.get_value.length ≤
            available_characters (new_child_element e GEDCOM_TAG_CONCATENATION)) ∧
        (gen.map Element.get_value).flatten = s.drop index
  | 0, e, s, index, e2, h => by simp [add_concatenation_loop] at h
  | fuel + 1, e, s, index, e2, h => by
      rw [add_concatenation_loop] at h
      split at h
      case isTrue hidx =>
        simp only [add_bounded_child, set_bounded_value] at h
        have ih := add_concatenation_loop_spec fuel _ s
          (index + line_length (new_child_element e GEDCOM_TAG_CONCATENATION) (s.drop index))
          e2 h
        obtain ⟨hl, hp, ht, hv, hc, gen, hch, hprops, hflat⟩ := ih
        refine ⟨by simpa using hl, by simpa using hp, by simpa using ht,
          by simpa using hv, by simpa using hc,
          ((new_child_element e GEDCOM_TAG_CONCATENATION).set_value
            ((s.drop index).take
              (line_length (new_child_element e GEDCOM_TAG_CONCATENATION) (s.drop index))))
            :: gen, ?_, ?_, ?_⟩
        · rw [hch]; simp [List.append_assoc]
        · intro c hcmem
          rcases List.mem_cons.mp hcmem with hc0 | hcg
          · subst hc0
            rw [new_child_set_value]
            refine ⟨rfl, rfl, rfl, rfl, rfl, ?_⟩
            simp only [Element.get_value_mk, List.length_take]
            exact le_trans (min_le_left _ _)
              (line_length_le_avail (new_child_element e GEDCOM_TAG_CONCATENATION) _)
          · have hp2 := hprops c hcg
            simp only [new_child_element_add_child, new_child_element_set_value,
              Element.get_crlf_add_child, Element.get_level_add_child] at hp2
            exact hp2
        · rw [List.map_cons, List.flatten_cons, hflat]
          rw [new_child_set_value]
          simp only [Element.get_value_mk, new_child_element_add_child,
            new_child_element_set_value]
          exact take_drop_chunk s index _
      case isFalse hidx =>
        have he : e = e2 := by simpa using h
        subst he
        refine ⟨rfl, rfl, rfl, rfl, rfl, [], by simp, by simp, ?_⟩
        simp only [List.map_nil, List.flatten_nil]
        exact (List.drop_eq_nil_of_le (by omega)).symm

theorem map_contrib_of_conc (t : PyStr) (gen : List Element)
    (h : ∀ c ∈ gen, c.get_tag = GEDCOM_TAG_CONCATENATION) :
    gen.map (contrib t) = gen.map Element.get_value := by
  refine List.map_congr_left fun c hc => ?_
  rw [contrib, if_pos (h c hc)]

/-- What a terminating run of the continued-lines loop does: it appends a
block of fresh continuation and concatenation children, each childless,
one level down, carrying the parent terminator and a bounded value, whose
joined contribution is terminator-plus-line for every line. -/
theorem set_continued_lines_spec :
    ∀ (lines : List PyStr) (fuel : Nat) (e : Element) (e2 : Element),
      set_continued_lines fuel e lines = some e2 →
      e2.get_level = e.get_level ∧ e2.get_pointer = e.get_pointer ∧
      e2.get_tag = e.get_tag ∧ e2.get_value = e.get_value ∧ e2.get_crlf = e.get_crlf ∧
      ∃ gen,
        e2.get_child_elements = e.get_child_elements ++ gen ∧
        (∀ c ∈ gen,
          (c.get_tag = GEDCOM_TAG_CONCATENATION ∨ c.get_tag = GEDCOM_TAG_CONTINUED) ∧
          c.get_crlf = e.get_crlf ∧ c.get_level = e.get_level + 1 ∧ c.get_pointer = [] ∧
          c.get_child_elements = [] ∧
          c.get_value.length ≤ available_characters (new_child_element e c.get_tag)) ∧
        (gen.map (contrib e.get_crlf)).flatten =
          (lines.map fun l => e.get_crlf ++ l).flatten
  | [], fuel, e, e2, h => by
      have he : e = e2 := by simpa [set_continued_lines] using h
      subst he
      exact ⟨rfl, rfl, rfl, rfl, rfl, [], by simp, by simp, by simp⟩
  | line :: rest, fuel, e, e2, h => by
      rw [set_continued_lines] at h
      simp only [add_bounded_child, set_bounded_value] at h
      split at h
      case h_1 heq => exact absurd h (by simp)
      case h_2 e3 heq =>
        have hacl := add_concatenation_loop_spec fuel _ _ 0 e3 heq
        obtain ⟨hl1, hp1, ht1, hv1, hc1, gen1, hch1, hprops1, hflat1⟩ := hacl
        have hscl := set_continued_lines_spec rest fuel e3 e2 h
        obtain ⟨hl2, hp2, ht2, hv2, hc2, gen2, hch2, hprops2, hflat2⟩ := hscl
        simp only [Element.get_level_add_child, Element.get_pointer_add_child,
          Element.get_tag_add_child, Element.get_value_add_child,
          Element.get_crlf_add_child, Element.get_children_add_child,
          new_child_element_add_child,
          new_child_element_set_value] at hl1 hp1 ht1 hv1 hc1 hch1 hprops1 hflat1
        refine ⟨by rw [hl2, hl1], by rw [hp2, hp1], by rw [ht2, ht1],
          by rw [hv2, hv1], by rw [hc2, hc1],
          ((new_child_element e GEDCOM_TAG_CONTINUED).set_value
            (line.take (line_length (new_child_element e GEDCOM_TAG_CONTINUED) line)))
            :: (gen1 ++ gen2), ?_, ?_, ?_⟩
        · rw [hch2, hch1]
          simp [List.append_assoc]
        · intro c hcmem
          rcases List.mem_cons.mp hcmem with hc0 | hcg
          · subst hc0
            rw [new_child_set_value]
            refine ⟨Or.inr rfl, rfl, rfl, rfl, rfl, ?_⟩
            simp only [Element.get_value_mk, Element.get_tag_mk, List.length_take]
            exact le_trans (min_le_left _ _)
              (line_length_le_avail (new_child_element e GEDCOM_TAG_CONTINUED) _)
          · rcases List.mem_append.mp hcg with hcg1 | hcg2
            · obtain ⟨hta, hcr, hle, hpo, hce, hva⟩ := hprops1 c hcg1
              exact ⟨Or.inl hta, hcr, hle, hpo, hce, by rw [hta]; exact hva⟩
            · obtain ⟨hta, hcr, hle, hpo, hce, hva⟩ := hprops2 c hcg2
              refine ⟨hta, by rw [hcr, hc1], by rw [hle, hl1], hpo, hce, ?_⟩
              have : new_child_element e3 c.get_tag = new_child_element e c.get_tag := by
                cases e3; cases e
                simp only [new_child_element, Element.get_level_mk, Element.get_crlf_mk]
                simp only [Element.get_level_mk] at hl1
                simp only [Element.get_crlf_mk] at hc1
                rw [hl1, hc1]
              rw [this] at hva
              exact hva
        · rw [List.map_cons, List.flatten_cons]
          rw [List.map_append, List.flatten_append]
          have hg1 : (gen1.map (contrib e.get_crlf)).flatten = line.drop
              (line_length (new_child_element e GEDCOM_TAG_CONTINUED) line) := by
            rw [map_contrib_of_conc _ _ fun c hc => (hprops1 c hc).1]
            rw [hflat1, List.drop_zero]
          have hg2 : (gen2.map (contrib e.get_crlf)).flatten =
              (rest.map fun l => e.get_crlf ++ l).flatten := by
            rw [← hc1]
            exact hflat2
          rw [hg1, hg2]
          have hcontrib : contrib e.get_crlf
              ((new_child_element e GEDCOM_TAG_CONTINUED).set_value
                (line.take (line_length (new_child_element e GEDCOM_TAG_CONTINUED) line))) =
              e.get_crlf ++ line.take
                (line_length (new_child_element e GEDCOM_TAG_CONTINUED) line) := by
            rw [new_child_set_value, contrib]
            rw [if_neg (by simp [cont_ne_conc]), if_pos (by simp)]
            simp
          rw [hcontrib]
          simp only [List.map_cons, List.flatten_cons, List.append_assoc]
          congr 1
          rw [← List.append_assoc, List.take_append_drop]

@[simp] theorem Element.get_level_set_value (e : Element) (v : PyStr) :
    (e.set_value v).get_level = e.get_level := by cases e; rfl

@[simp] theorem Element.get_pointer_set_value (e : Element) (v : PyStr) :
    (e.set_value v).get_pointer = e.get_pointer := by cases e; rfl

@[simp] theorem Element.get_tag_set_value (e : Element) (v : PyStr) :
    (e.set_value v).get_tag = e.get_tag := by cases e; rfl

@[simp] theorem Element.get_crlf_set_value (e : Element) (v : PyStr) :
    (e.set_value v).get_crlf = e.get_crlf := by cases e; rfl

@[simp] theorem Element.get_children_set_value (e : Element) (v : PyStr) :
    (e.set_value v).get_child_elements = e.get_child_elements := by cases e; rfl

@[simp] theorem Element.get_value_set_value (e : Element) (v : PyStr) :
    (e.set_value v).get_value = v := by cases e; rfl

@[simp] theorem purge_reserved_level (e : Element) :
    (purge_reserved e).get_level = e.get_level := by cases e; simp [purge_reserved]

@[simp] theorem purge_reserved_pointer (e : Element) :
    (purge_reserved e).get_pointer = e.get_pointer := by cases e; simp [purge_reserved]

@[simp] theorem purge_reserved_tag (e : Element) :
    (purge_reserved e).get_tag = e.get_tag := by cases e; simp [purge_reserved]

@[simp] theorem purge_reserved_value (e : Element) :
    (purge_reserved e).get_value = e.get_value := by cases e; simp [purge_reserved]

@[simp] theorem purge_reserved_crlf (e : Element) :
    (purge_reserved e).get_crlf = e.get_crlf := by cases e; simp [purge_reserved]

@[simp] theorem purge_reserved_children (e : Element) :
    (purge_reserved e).get_child_elements = e.get_child_elements.filter fun c =>
      ¬ (c.get_tag = GEDCOM_TAG_CONCATENATION ∨ c.get_tag = GEDCOM_TAG_CONTINUED) := by
  cases e; simp [purge_reserved]

theorem new_child_element_congr (a b : Element) (h1 : a.get_level = b.get_level)
    (h2 : a.get_crlf = b.get_crlf) (tag : PyStr) :
    new_child_element a tag = new_child_element b tag := by
  simp [new_child_element, h1, h2]

/-- Structure of a terminating `set_multi_line_value` call: the top-level
fields other than the value are preserved, the children are the old
children with the reserved-tag ones removed followed by a block of freshly
generated childless continuation and concatenation children at the next
level, the own value is the bounded first chunk of the first physical
line, and the generated contributions reassemble the remaining text. -/
theorem set_multi_line_value_spec (fuel : Nat) (e : Element) (v : PyStr) (e2 : Element)
    (h : set_multi_line_value fuel e v = some e2) :
    e2.get_level = e.get_level ∧ e2.get_pointer = e.get_pointer ∧
    e2.get_tag = e.get_tag ∧ e2.get_crlf = e.get_crlf ∧
    e2.get_value = (match splitlines v with
      | [] => []
      | line :: _ => line.take (line_length (purge_reserved (e.set_value [])) line)) ∧
    ∃ gen,
      e2.get_child_elements =
        (e.get_child_elements.filter fun c =>
          ¬ (c.get_tag = GEDCOM_TAG_CONCATENATION ∨ c.get_tag = GEDCOM_TAG_CONTINUED)) ++
          gen ∧
      (∀ c ∈ gen,
        (c.get_tag = GEDCOM_TAG_CONCATENATION ∨ c.get_tag = GEDCOM_TAG_CONTINUED) ∧
        c.get_crlf = e.get_crlf ∧ c.get_level = e.get_level + 1 ∧ c.get_pointer = [] ∧
        c.get_child_elements = [] ∧
        c.get_value.length ≤ available_characters (new_child_element e c.get_tag)) ∧
      (gen.map (contrib e.get_crlf)).flatten =
        (match splitlines v with
          | [] => []
          | line :: rest =>
              line.drop (line_length (purge_reserved (e.set_value [])) line) ++
                (rest.map fun l => e.get_crlf ++ l).flatten) := by
  simp only [set_multi_line_value, set_bounded_value] at h
  cases hsp : splitlines v with
  | nil =>
      rw [hsp] at h
      dsimp only at h
      simp only [Option.some.injEq] at h
      subst h
      refine ⟨by simp, by simp, by simp, by simp, by simp [hsp], [], by simp, by simp,
        by simp [hsp]⟩
  | cons line rest =>
      rw [hsp] at h
      dsimp only at h
      split at h
      case h_1 heq => exact absurd h (by simp)
      case h_2 e4 heq =>
        rw [add_concatenation] at heq
        have hacl := add_concatenation_loop_spec fuel _ _ 0 e4 heq
        obtain ⟨hl1, hp1, ht1, hv1, hc1, gen1, hch1, hprops1, hflat1⟩ := hacl
        have hscl := set_continued_lines_spec rest fuel e4 e2 h
        obtain ⟨hl2, hp2, ht2, hv2, hc2, gen2, hch2, hprops2, hflat2⟩ := hscl
        have hl14 : e4.get_level = e.get_level := by simpa using hl1
        have hp14 : e4.get_pointer = e.get_pointer := by simpa using hp1
        have ht14 : e4.get_tag = e.get_tag := by simpa using ht1
        have hc14 : e4.get_crlf = e.get_crlf := by simpa using hc1
        have hv14 : e4.get_value =
            line.take (line_length (purge_reserved (e.set_value [])) line) := by
          simpa using hv1
        have hnc4 : ∀ tg, new_child_element e4 tg = new_child_element e tg := fun tg =>
          new_child_element_congr _ _ hl14 hc14 tg
        have hnc3 : ∀ tg,
            new_child_element ((purge_reserved (e.set_value [])).set_value
              (line.take (line_length (purge_reserved (e.set_value [])) line))) tg =
            new_child_element e tg := fun tg =>
          new_child_element_congr _ _ (by simp) (by simp) tg
        refine ⟨by rw [hl2, hl14], by rw [hp2, hp14], by rw [ht2, ht14],
          by rw [hc2, hc14], by simp [hsp]; rw [hv2, hv14], gen1 ++ gen2, ?_, ?_, ?_⟩
        · rw [hch2, hch1]
          simp [List.append_assoc]
        · intro c hcmem
          rcases List.mem_append.mp hcmem with hcg1 | hcg2
          · obtain ⟨hta, hcr, hle, hpo, hce, hva⟩ := hprops1 c hcg1
            refine ⟨Or.inl hta, by simpa using hcr, by simpa using hle, hpo, hce, ?_⟩
            rw [hta]
            rw [hnc3] at hva
            exact hva
          · obtain ⟨hta, hcr, hle, hpo, hce, hva⟩ := hprops2 c hcg2
            refine ⟨hta, by rw [hcr, hc14], by rw [hle, hl14], hpo, hce, ?_⟩
            rw [hnc4] at hva
            exact hva
        · rw [List.map_append, List.flatten_append]
          have hg1 : (gen1.map (contrib e.get_crlf)).flatten =
              line.drop (line_length (purge_reserved (e.set_value [])) line) := by
            rw [map_contrib_of_conc _ _ fun c hc => (hprops1 c hc).1]
            rw [hflat1, List.drop_zero]
          have hg2 : (gen2.map (contrib e.get_crlf)).flatten =
              (rest.map fun l => e.get_crlf ++ l).flatten := by
            rw [← hc14]
            exact hflat2
          rw [hg1, hg2]

theorem flatten_contrib_nil (t : PyStr) (l : List Element)
    (h : ∀ c ∈ l, ¬ (c.get_tag = GEDCOM_TAG_CONCATENATION ∨ c.get_tag = GEDCOM_TAG_CONTINUED)) :
    (l.map (contrib t)).flatten = [] := by
  induction l with
  | nil => simp
  | cons c l ih =>
      have hc := h c (List.mem_cons_self _ _)
      rw [List.map_cons, List.flatten_cons, contrib, if_neg fun h1 => hc (Or.inl h1),
        if_neg fun h2 => hc (Or.inr h2)]
      rw [List.nil_append]
      exact ih fun x hx => h x (List.mem_cons_of_mem _ hx)

/-- After a terminating `set_multi_line_value` with value `v`, the
reassembled multi-line value is exactly the physical lines of `v` joined
with the terminator of the node. -/
theorem get_multi_line_value_of_set (fuel : Nat) (e : Element) (v : PyStr) (e2 : Element)
    (h : set_multi_line_value fuel e v = some e2) :
    get_multi_line_value e2 = joinWith e.get_crlf (splitlines v) := by
  obtain ⟨hl, hp, ht, hc, hv, gen, hch, hprops, hflat⟩ :=
    set_multi_line_value_spec fuel e v e2 h
  have hfilter : ∀ c ∈ (e.get_child_elements.filter fun c =>
      ¬ (c.get_tag = GEDCOM_TAG_CONCATENATION ∨ c.get_tag = GEDCOM_TAG_CONTINUED)),
      ¬ (c.get_tag = GEDCOM_TAG_CONCATENATION ∨ c.get_tag = GEDCOM_TAG_CONTINUED) := by
    intro c hcm
    have := (List.mem_filter.mp hcm).2
    simpa using this
  rw [get_multi_line_value, hch, hc, hv]
  rw [foldl_mlv_step e.get_crlf _ _ ?_]
  · rw [List.map_append, List.flatten_append]
    rw [flatten_contrib_nil e.get_crlf _ hfilter, List.nil_append, hflat]
    cases hsp : splitlines v with
    | nil => simp [joinWith]
    | cons line rest =>
        rw [joinWith_eq]
        rw [← List.append_assoc, List.take_append_drop]
  · intro c hcm hres
    rcases List.mem_append.mp hcm with hcf | hcg
    · exact absurd hres (hfilter c hcf)
    · exact (hprops c hcg).2.1

/-- C1 (counterexample): the round-trip law fails as stated; for the value
made of the letter a followed by a line feed, on a level-0 NOTE node with
line-feed terminator, setting then getting the multi-line value returns
only the letter a — the trailing terminator is lost. -/
theorem round_trip_fails_on_trailing_terminator :
    (set_multi_line_value 50 (Element.mk 0 [] (pys "NOTE") [] (pys "\n") [])
      (pys "a\n")).map get_multi_line_value = some (pys "a") ∧
    pys "a" ≠ pys "a\n" := by
  constructor
  · rfl
  · decide

/-- C1 (amended): the round trip holds for every logical value whose
physical lines rejoin to the value itself with the terminator of the node
— that is, every value with no trailing terminator whose internal line
breaks are exactly the terminator of the node; for such values, and
whenever the split terminates, setting then getting the multi-line value
returns exactly the value, whatever the line lengths. -/
theorem round_trip_for_matching_terminators (fuel : Nat) (e : Element) (v : PyStr)
    (e2 : Element) (h : set_multi_line_value fuel e v = some e2)
    (hv : joinWith e.get_crlf (splitlines v) = v) :
    get_multi_line_value e2 = v := by
  rw [get_multi_line_value_of_set fuel e v e2 h, hv]

/-- C1 (witness): the amended round trip at a two-line value on a level-0
NOTE node with line-feed terminator. -/
theorem round_trip_for_matching_terminators_witness :
    get_multi_line_value (Element.mk 0 [] (pys "NOTE") (pys "hello") (pys "\n")
      [Element.mk 1 [] (pys "CONT") (pys "world") (pys "\n") []]) = pys "hello\nworld" :=
  round_trip_for_matching_terminators 50
    (Element.mk 0 [] (pys "NOTE") [] (pys "\n") []) (pys "hello\nworld")
    (Element.mk 0 [] (pys "NOTE") (pys "hello") (pys "\n")
      [Element.mk 1 [] (pys "CONT") (pys "world") (pys "\n") []])
    (by rfl) (by decide)

/-- C4: after a terminating `set_multi_line_value`, the children are
exactly the old children that do not carry a reserved tag, untouched and
in their original relative order, followed by freshly generated children
that all carry a reserved tag — so no reserved-tag children from before
the call remain. -/
theorem purge_on_reset (fuel : Nat) (e : Element) (v : PyStr) (e2 : Element)
    (h : set_multi_line_value fuel e v = some e2) :
    ∃ gen,
      e2.get_child_elements =
        (e.get_child_elements.filter fun c =>
          c.get_tag ≠ GEDCOM_TAG_CONCATENATION ∧ c.get_tag ≠ GEDCOM_TAG_CONTINUED) ++ gen ∧
      ∀ c ∈ gen, c.get_tag = GEDCOM_TAG_CONCATENATION ∨ c.get_tag = GEDCOM_TAG_CONTINUED := by
  obtain ⟨_, _, _, _, _, gen, hch, hprops, _⟩ := set_multi_line_value_spec fuel e v e2 h
  refine ⟨gen, ?_, fun c hc => (hprops c hc).1⟩
  rw [hch]
  congr 1
  refine List.filter_congr fun c hc => ?_
  simp [not_or]

/-- C4 (witness): purge-on-reset on a node holding one stale concatenation
child and one DATE child; the DATE child survives, the stale
concatenation child is gone, and the single generated child is
reserved-tagged. -/
theorem purge_on_reset_witness :
    ∃ gen,
      (Element.mk 0 [] (pys "NOTE") (pys "hi") (pys "\n")
        [Element.mk 1 [] (pys "DATE") (pys "1990") (pys "\n") [],
         Element.mk 1 [] (pys "CONT") (pys "new line") (pys "\n") []]).get_child_elements =
        ((Element.mk 0 [] (pys "NOTE") (pys "old") (pys "\n")
          [Element.mk 1 [] (pys "CONC") (pys "stale") (pys "\n") [],
           Element.mk 1 [] (pys "DATE") (pys "1990") (pys "\n") []]).get_child_elements.filter
            fun c => c.get_tag ≠ GEDCOM_TAG_CONCATENATION ∧
              c.get_tag ≠ GEDCOM_TAG_CONTINUED) ++ gen ∧
      ∀ c ∈ gen, c.get_tag = GEDCOM_TAG_CONCATENATION ∨ c.get_tag = GEDCOM_TAG_CONTINUED :=
  purge_on_reset 50
    (Element.mk 0 [] (pys "NOTE") (pys "old") (pys "\n")
      [Element.mk 1 [] (pys "CONC") (pys "stale") (pys "\n") [],
       Element.mk 1 [] (pys "DATE") (pys "1990") (pys "\n") []])
    (pys "hi\nnew line")
    (Element.mk 0 [] (pys "NOTE") (pys "hi") (pys "\n")
      [Element.mk 1 [] (pys "DATE") (pys "1990") (pys "\n") [],
       Element.mk 1 [] (pys "CONT") (pys "new line") (pys "\n") []])
    (by rfl)

/-- C3 (counterexample): on a level-0 NOTE node whose terminator is 245
characters long (budget 4 per line), splitting a ten-character value
produces two concatenation children that are both direct children of the
node and both childless — a flat sibling list, not a nested chain hanging
from the most recently created node. -/
theorem overflow_chain_is_not_nested :
    (set_multi_line_value 20 (Element.mk 0 [] (pys "NOTE") [] (List.replicate 245 'x') [])
      (pys "abcdefghij")).map
        (fun r => (r.get_child_elements.map Element.get_tag,
          r.get_child_elements.map fun c => c.get_child_elements.length)) =
      some ([GEDCOM_TAG_CONCATENATION, GEDCOM_TAG_CONCATENATION], [0, 0]) := by
  rfl

/-- C3 (amended): every overflow chunk becomes a further concatenation
child appended directly to the original node: the generated children form
a flat ordered sibling list under the node and each generated child is
itself childless. -/
theorem overflow_children_are_flat (fuel : Nat) (e : Element) (v : PyStr) (e2 : Element)
    (h : set_multi_line_value fuel e v = some e2) :
    ∃ gen,
      e2.get_child_elements =
        (e.get_child_elements.filter fun c =>
          ¬ (c.get_tag = GEDCOM_TAG_CONCATENATION ∨ c.get_tag = GEDCOM_TAG_CONTINUED)) ++
          gen ∧
      ∀ c ∈ gen, c.get_child_elements = [] ∧ c.get_level = e.get_level + 1 := by
  obtain ⟨_, _, _, _, _, gen, hch, hprops, _⟩ := set_multi_line_value_spec fuel e v e2 h
  exact ⟨gen, hch, fun c hc => ⟨(hprops c hc).2.2.2.2.1, (hprops c hc).2.2.1⟩⟩

/-- C3 (witness): flatness at the counterexample input — the two overflow
chunks are direct childless children of the node. -/
theorem overflow_children_are_flat_witness :
    ∃ gen,
      (Element.mk 0 [] (pys "NOTE") (pys "abcd") (List.replicate 245 'x')
        [Element.mk 1 [] (pys "CONC") (pys "efgh") (List.replicate 245 'x') [],
         Element.mk 1 [] (pys "CONC") (pys "ij") (List.replicate 245 'x')
           []]).get_child_elements =
        ((Element.mk 0 [] (pys "NOTE") [] (List.replicate 245 'x')
          []).get_child_elements.filter fun c =>
            ¬ (c.get_tag = GEDCOM_TAG_CONCATENATION ∨ c.get_tag = GEDCOM_TAG_CONTINUED)) ++
          gen ∧
      ∀ c ∈ gen, c.get_child_elements = [] ∧ c.get_level = (0 : Int) + 1 :=
  overflow_children_are_flat 20
    (Element.mk 0 [] (pys "NOTE") [] (List.replicate 245 'x') []) (pys "abcdefghij")
    (Element.mk 0 [] (pys "NOTE") (pys "abcd") (List.replicate 245 'x')
      [Element.mk 1 [] (pys "CONC") (pys "efgh") (List.replicate 245 'x') [],
       Element.mk 1 [] (pys "CONC") (pys "ij") (List.replicate 245 'x') []])
    (by rfl)

theorem to_gedcom_line_length (l : Int) (p t v c : PyStr) (k : List Element)
    (hl : ¬ l < 0) :
    (to_gedcom_line (Element.mk l p t v c k)).length =
      (intStr l).length + (if p = [] then 0 else 1 + p.length) + 1 + t.length +
        (if v = [] then 0 else 1 + v.length) + c.length := by
  simp only [to_gedcom_line]
  rw [if_neg hl]
  by_cases hp : p = [] <;> by_cases hv : v = [] <;>
    simp [hp, hv, List.length_append] <;> omega

theorem to_gedcom_line_neg (l : Int) (p t v c : PyStr) (k : List Element) (hl : l < 0) :
    to_gedcom_line (Element.mk l p t v c k) = [] := by
  simp only [to_gedcom_line]
  rw [if_pos hl]

/-- C5 (counterexample): on a level-0 NOTE node with line-feed terminator
and empty value, the code computes a budget of 248, while the formula of
the claim — the terminator not contributing to the subtracted length —
gives 249: the terminator does contribute. -/
theorem available_budget_counterexample :
    available_characters (Element.mk 0 [] (pys "NOTE") [] (pys "\n") []) = 248 ∧
    available_characters_claimed (Element.mk 0 [] (pys "NOTE") [] (pys "\n") []) = 249 ∧
    (248 : Nat) ≠ 249 := by
  refine ⟨by decide, by decide, by decide⟩

/-- C5 (amended): for every node with empty value (the state in which the
splitter computes the budget) and non-negative level, the budget equals
255 minus the length of the empty-value serialization with the terminator
INCLUDED in the subtracted length, clamped at 0; for a negative level the
serialization is empty and the budget is the full 255. -/
theorem available_budget_amended (l : Int) (p t c : PyStr) (k : List Element) :
    (¬ l < 0 → (available_characters (Element.mk l p t [] c k) : Int) =
      max 0 (255 - (((intStr l).length + (if p = [] then 0 else 1 + p.length) + 1 +
        t.length + c.length : Nat) : Int))) ∧
    (l < 0 → available_characters (Element.mk l p t [] c k) = 255) := by
  constructor
  · intro hl
    have hlen := to_gedcom_line_length l p t [] c k hl
    simp at hlen
    simp only [available_characters, to_gedcom_string_false, hlen]
    have hm : ∀ x : Int, max 0 x = if 0 ≤ x then x else 0 := fun x => by
      rcases le_or_lt 0 x with h | h
      · rw [max_eq_right h, if_pos h]
      · rw [max_eq_left h.le, if_neg (not_le.mpr h)]
    rw [hm]
    split_ifs <;> omega
  · intro hl
    simp [available_characters, to_gedcom_string_false, to_gedcom_line_neg l p t [] c k hl]

/-- C5 (witness): the amended budget law at a level-1 SOUR node with a
CR LF terminator: 255 minus 8 gives 247. -/
theorem available_budget_amended_witness :
    (available_characters (Element.mk 1 [] (pys "SOUR") [] (pys "\r\n") []) : Int) =
      max 0 (255 - (((intStr 1).length +
        (if ([] : PyStr) = [] then 0 else 1 + ([] : PyStr).length) + 1 +
        (pys "SOUR").length + (pys "\r\n").length : Nat) : Int)) :=
  (available_budget_amended 1 [] (pys "SOUR") (pys "\r\n") []).1 (by decide)

/-- C6: break-point computation: if the candidate fits the budget, the
break point is its length; otherwise either the whole budget is spaces and
the cut falls back to the unadjusted budget position, or the cut is a
positive position within the budget whose preceding character is not a
space and after which only spaces remain up to the budget position. -/
theorem break_point_spec (e : Element) (l : PyStr) :
    (l.length ≤ available_characters e → line_length e l = l.length) ∧
    (available_characters e < l.length →
      ((∀ j, j < available_characters e → l.get? j = some ' ') ∧
        line_length e l = available_characters e) ∨
      (1 ≤ line_length e l ∧ line_length e l ≤ available_characters e ∧
        l.get? (line_length e l - 1) ≠ some ' ' ∧
        ∀ j, line_length e l ≤ j → j < available_characters e → l.get? j = some ' ')) := by
  constructor
  · intro hle
    simp only [line_length]
    rw [if_pos hle]
  · intro hgt
    obtain ⟨hle, hscan, hstop⟩ := space_backoff_spec l (available_characters e)
    simp only [line_length]
    rw [if_neg (by omega)]
    by_cases hfb : space_backoff l (available_characters e) = available_characters e
    · rw [if_pos hfb]
      left
      refine ⟨fun j hj => hscan j (by omega) hj, rfl⟩
    · rw [if_neg hfb]
      right
      refine ⟨by omega, by omega, ?_, fun j h1 h2 => hscan j (by omega) h2⟩
      exact hstop.resolve_left hfb

/-- C6 (witness): the break point of the nine-character candidate made of
four letters, a space and four letters, under a budget of 5, lands after
the fourth letter: positive, within the budget, not preceded by a space,
and followed by spaces only up to the budget position. -/
theorem break_point_spec_witness :
    1 ≤ line_length (Element.mk 0 [] (pys "NOTE") [] (List.replicate 244 'x') [])
        (pys "abcd efgh") ∧
    line_length (Element.mk 0 [] (pys "NOTE") [] (List.replicate 244 'x') [])
        (pys "abcd efgh") ≤
      available_characters (Element.mk 0 [] (pys "NOTE") [] (List.replicate 244 'x') []) ∧
    (pys "abcd efgh").get?
        (line_length (Element.mk 0 [] (pys "NOTE") [] (List.replicate 244 'x') [])
          (pys "abcd efgh") - 1) ≠ some ' ' ∧
    ∀ j, line_length (Element.mk 0 [] (pys "NOTE") [] (List.replicate 244 'x') [])
        (pys "abcd efgh") ≤ j →
      j < available_characters (Element.mk 0 [] (pys "NOTE") [] (List.replicate 244 'x') []) →
      (pys "abcd efgh").get? j = some ' ' := by
  have h := (break_point_spec (Element.mk 0 [] (pys "NOTE") [] (List.replicate 244 'x') [])
    (pys "abcd efgh")).2 (by decide)
  rcases h with h | h
  · exact absurd (h.1 3 (by decide)) (by decide)
  · exact h

theorem to_gedcom_line_congr (a b : Element) (h1 : a.get_level = b.get_level)
    (h2 : a.get_pointer = b.get_pointer) (h3 : a.get_tag = b.get_tag)
    (h4 : a.get_value = b.get_value) (h5 : a.get_crlf = b.get_crlf) :
    to_gedcom_line a = to_gedcom_line b := by
  cases a; cases b
  simp only [Element.get_level_mk, Element.get_pointer_mk, Element.get_tag_mk,
    Element.get_value_mk, Element.get_crlf_mk] at h1 h2 h3 h4 h5
  subst h1; subst h2; subst h3; subst h4; subst h5
  rfl

/-- A single node respects the 255 bound on its terminator-free rendering
as soon as its terminator is nonempty, its empty-value rendering fits in
255 (terminator included), and its value fits its own budget. -/
theorem to_gedcom_line_length_empty (l : Int) (p t c : PyStr) (k : List Element)
    (hl : ¬ l < 0) :
    (to_gedcom_line (Element.mk l p t [] c k)).length =
      (intStr l).length + (if p = [] then 0 else 1 + p.length) + 1 + t.length + c.length := by
  rw [to_gedcom_line_length l p t [] c k hl]
  simp

theorem rendered_length_le (x : Element)
    (hcrlf : x.get_crlf ≠ [])
    (hroot : (to_gedcom_string (x.set_value []) false).length ≤ 255)
    (hval : x.get_value.length ≤ available_characters (x.set_value [])) :
    rendered_length x ≤ 255 := by
  cases x with
  | mk l p t v c k =>
    by_cases hl : l < 0
    · simp [rendered_length, to_gedcom_string_false, to_gedcom_line_neg l p t v c k hl]
    · have hc1 : 1 ≤ c.length := List.length_pos.mpr (by simpa using hcrlf)
      have h0 : (to_gedcom_line (Element.mk l p t [] c k)).length =
          (intStr l).length + (if p = [] then 0 else 1 + p.length) + 1 + t.length +
            c.length := to_gedcom_line_length_empty l p t c k hl
      have hv2 := to_gedcom_line_length l p t v c k hl
      have hroot2 : (intStr l).length + (if p = [] then 0 else 1 + p.length) + 1 +
          t.length + c.length ≤ 255 := by
        rw [← h0, ← to_gedcom_string_false]
        simpa using hroot
      have hval2 : v.length ≤ 255 - ((intStr l).length +
          (if p = [] then 0 else 1 + p.length) + 1 + t.length + c.length) := by
        simp only [Element.get_value_mk, Element.set_value_mk, available_characters,
          to_gedcom_string_false, h0] at hval
        rwa [if_neg (by omega)] at hval
      simp only [rendered_length, to_gedcom_string_false, Element.get_crlf_mk, hv2]
      split_ifs at hroot2 hval2 ⊢ <;> omega

/-- C2 (counterexample): the bound fails as stated for a node constructed
with an empty terminator: a level-0 NOTE node with empty terminator and a
250-character value keeps 249 characters, and its rendering with the
(empty) terminator excluded is 256 characters long. -/
theorem line_length_bound_counterexample :
    (set_multi_line_value 50 (Element.mk 0 [] (pys "NOTE") [] [] [])
      (List.replicate 250 'a')).map rendered_length = some 256 ∧ ¬ (256 : Nat) ≤ 255 := by
  exact ⟨by rfl, by decide⟩

/-- C2 (amended): for every node produced by a terminating split — the
node itself and each generated child — the terminator-free rendering stays
within 255 characters, provided the node terminator is nonempty, the
empty-value rendering of the node fits in 255 (terminator included), and
the empty-value renderings of the fresh concatenation and continuation
children fit in 255 (terminator included). -/
theorem line_length_bound_amended (fuel : Nat) (e : Element) (v : PyStr) (e2 : Element)
    (h : set_multi_line_value fuel e v = some e2)
    (hcrlf : e.get_crlf ≠ [])
    (hroot : (to_gedcom_string (e.set_value []) false).length ≤ 255)
    (hconc : (to_gedcom_string (new_child_element e GEDCOM_TAG_CONCATENATION)
      false).length ≤ 255)
    (hcont : (to_gedcom_string (new_child_element e GEDCOM_TAG_CONTINUED)
      false).length ≤ 255) :
    rendered_length e2 ≤ 255 ∧
    ∃ gen,
      e2.get_child_elements = (e.get_child_elements.filter fun c =>
        ¬ (c.get_tag = GEDCOM_TAG_CONCATENATION ∨ c.get_tag = GEDCOM_TAG_CONTINUED)) ++
        gen ∧
      ∀ c ∈ gen, rendered_length c ≤ 255 := by
  obtain ⟨hl, hp, ht, hc, hv, gen, hch, hprops, hflat⟩ :=
    set_multi_line_value_spec fuel e v e2 h
  constructor
  · apply rendered_length_le
    · rw [hc]; exact hcrlf
    · have hcg : to_gedcom_line (e2.set_value []) = to_gedcom_line (e.set_value []) :=
        to_gedcom_line_congr _ _ (by simp [hl]) (by simp [hp]) (by simp [ht]) (by simp)
          (by simp [hc])
      rw [to_gedcom_string_false, hcg, ← to_gedcom_string_false]
      exact hroot
    · have havail : available_characters (e2.set_value []) =
          available_characters (purge_reserved (e.set_value [])) := by
        apply available_characters_congr
        apply to_gedcom_line_congr <;> simp [hl, hp, ht, hc]
      rw [havail, hv]
      cases hsp : splitlines v with
      | nil => simp
      | cons line rest =>
          simp only [List.length_take]
          exact le_trans (min_le_left _ _) (line_length_le_avail _ _)
  · refine ⟨gen, hch, ?_⟩
    intro c hcmem
    obtain ⟨hta, hcr, hle, hpo, hce, hva⟩ := hprops c hcmem
    have hcs : to_gedcom_line (c.set_value []) =
        to_gedcom_line (new_child_element e c.get_tag) :=
      to_gedcom_line_congr _ _ (by simp [hle, new_child_element])
        (by simp [hpo, new_child_element]) (by simp [new_child_element])
        (by simp [new_child_element]) (by simp [hcr, new_child_element])
    apply rendered_length_le
    · rw [hcr]; exact hcrlf
    · rw [to_gedcom_string_false, hcs, ← to_gedcom_string_false]
      rcases hta with h4 | h4
      · rw [h4]; exact hconc
      · rw [h4]; exact hcont
    · rw [show available_characters (c.set_value []) =
          available_characters (new_child_element e c.get_tag) from
        available_characters_congr _ _ hcs]
      exact hva

/-- C2 (witness): the amended bound on a level-0 NOTE node with line-feed
terminator and a 300-character value: the node keeps 248 characters, the
single concatenation child 52, and both renderings stay within 255. -/
theorem line_length_bound_amended_witness :
    rendered_length (Element.mk 0 [] (pys "NOTE") (List.replicate 248 'a') (pys "\n")
      [Element.mk 1 [] (pys "CONC") (List.replicate 52 'a') (pys "\n") []]) ≤ 255 ∧
    ∃ gen,
      (Element.mk 0 [] (pys "NOTE") (List.replicate 248 'a') (pys "\n")
        [Element.mk 1 [] (pys "CONC") (List.replicate 52 'a') (pys "\n")
          []]).get_child_elements =
        ((Element.mk 0 [] (pys "NOTE") [] (pys "\n") []).get_child_elements.filter fun c =>
          ¬ (c.get_tag = GEDCOM_TAG_CONCATENATION ∨ c.get_tag = GEDCOM_TAG_CONTINUED)) ++
          gen ∧
      ∀ c ∈ gen, rendered_length c ≤ 255 :=
  line_length_bound_amended 50 (Element.mk 0 [] (pys "NOTE") [] (pys "\n") [])
    (List.replicate 300 'a')
    (Element.mk 0 [] (pys "NOTE") (List.replicate 248 'a') (pys "\n")
      [Element.mk 1 [] (pys "CONC") (List.replicate 52 'a') (pys "\n") []])
    (by rfl) (by decide) (by decide) (by decide) (by decide)

/-- When the fresh concatenation child of a node has budget 0 and text
remains, the overflow loop makes no progress: whatever the fuel, the
fueled model of the loop returns none (the Python loop runs forever). -/
theorem add_concatenation_loop_stuck (s : PyStr) (index : Nat) (hidx : index < s.length) :
    ∀ (fuel : Nat) (e : Element),
      available_characters (new_child_element e GEDCOM_TAG_CONCATENATION) = 0 →
      add_concatenation_loop fuel e s index = none
  | 0, e, h0 => by rw [add_concatenation_loop]
  | fuel + 1, e, h0 => by
      rw [add_concatenation_loop]
      rw [if_pos hidx]
      simp only [add_bounded_child, set_bounded_value]
      have hn : line_length (new_child_element e GEDCOM_TAG_CONCATENATION)
          (s.drop index) = 0 := by
        simp only [line_length, h0]
        rw [if_neg (by rw [List.length_drop]; omega)]
        simp [space_backoff, space_backoff_go]
      rw [hn]
      simp only [List.take_zero, Nat.add_zero]
      exact add_concatenation_loop_stuck s index hidx fuel _
        (by rw [new_child_element_add_child]; exact h0)

/-- C7: the split does not always terminate even though the spec requires
progress: on a level-0 NOTE node whose terminator is 250 characters long,
the empty-value rendering of the node and of every generated concatenation
child exceeds 255, so both budgets are 0; the bounded cut returns a
zero-length chunk, the loop index never advances, and for EVERY fuel the
fueled model of `set_multi_line_value` on the two-character value returns
none. -/
theorem split_hangs_on_zero_child_budget (fuel : Nat) :
    set_multi_line_value fuel
      (Element.mk 0 [] (pys "NOTE") [] (List.replicate 250 'x') []) (pys "ab") = none := by
  simp only [set_multi_line_value, set_bounded_value]
  rw [show splitlines (pys "ab") = [pys "ab"] from rfl]
  dsimp only
  rw [show line_length (purge_reserved ((Element.mk 0 [] (pys "NOTE") []
    (List.replicate 250 'x') []).set_value [])) (pys "ab") = 0 from by decide]
  rw [add_concatenation]
  simp only [List.take_zero, List.drop_zero]
  rw [add_concatenation_loop_stuck (pys "ab") 0 (by decide) fuel _ (by decide)]

theorem render_children_eq_flatten :
    ∀ (l : List Element),
      render_children l = (l.map fun c => to_gedcom_string c true).flatten
  | [] => rfl
  | c :: rest => by
      rw [render_children, render_children_eq_flatten rest, List.map_cons, List.flatten_cons]

/-- C8: serializer contract: the non-recursive rendering is the level,
then the pointer segment when the pointer is nonempty, a space and the
tag, the value segment when the value is nonempty, and the terminator —
the whole line replaced by the empty string when the level is negative;
the recursive rendering is the non-recursive line followed by the
recursive renderings of the children in order with nothing in between, so
for a negative level it is exactly the concatenation of the children
renderings. -/
theorem to_gedcom_string_spec (e : Element) :
    to_gedcom_string e false =
      (if e.get_level < 0 then [] else
        intStr e.get_level ++
        (if e.get_pointer = [] then [] else ' ' :: e.get_pointer) ++
        (' ' :: e.get_tag) ++
        (if e.get_value = [] then [] else ' ' :: e.get_value) ++ e.get_crlf) ∧
    to_gedcom_string e true =
      to_gedcom_string e false ++
        (e.get_child_elements.map fun c => to_gedcom_string c true).flatten ∧
    (e.get_level < 0 →
      to_gedcom_string e true =
        (e.get_child_elements.map fun c => to_gedcom_string c true).flatten) := by
  cases e with
  | mk l p t v c k =>
    have h2 : to_gedcom_string (Element.mk l p t v c k) true =
        to_gedcom_string (Element.mk l p t v c k) false ++
          ((k.map fun x => to_gedcom_string x true).flatten) := by
      rw [to_gedcom_string_false]
      rw [show to_gedcom_string (Element.mk l p t v c k) true =
        to_gedcom_line (Element.mk l p t v c k) ++ render_children k by
          simp [to_gedcom_string]]
      rw [render_children_eq_flatten]
    have h1 : to_gedcom_string (Element.mk l p t v c k) false =
        (if l < 0 then [] else
          intStr l ++ (if p = [] then [] else ' ' :: p) ++ (' ' :: t) ++
          (if v = [] then [] else ' ' :: v) ++ c) := by
      rw [to_gedcom_string_false]
      simp only [to_gedcom_line]
      by_cases hl : l < 0
      · rw [if_pos hl, if_pos hl]
      · rw [if_neg hl, if_neg hl]
        by_cases hp : p = [] <;> by_cases hv : v = [] <;>
          simp [hp, hv, List.append_assoc]
    refine ⟨h1, by simpa using h2, fun hl => ?_⟩
    have hl2 : l < 0 := by simpa using hl
    rw [h2, h1, if_pos hl2, List.nil_append]
    simp

/-- C8 (witness): a synthetic root at level -1 with one HEAD child renders
to nothing itself and recursively to exactly the rendering of its child.
-/
theorem to_gedcom_string_spec_witness :
    to_gedcom_string (Element.mk (-1) [] (pys "ROOT") [] (pys "\n")
      [Element.mk 0 [] (pys "HEAD") [] (pys "\n") []]) true =
      ((Element.mk (-1) [] (pys "ROOT") [] (pys "\n")
        [Element.mk 0 [] (pys "HEAD") [] (pys "\n") []]).get_child_elements.map
          fun c => to_gedcom_string c true).flatten :=
  (to_gedcom_string_spec (Element.mk (-1) [] (pys "ROOT") [] (pys "\n")
    [Element.mk 0 [] (pys "HEAD") [] (pys "\n") []])).2.2 (by decide)

/-- C9: `SourceElement.get_repository_pointer` returns the empty string on
every element, whatever its children: the loop assigns the scanned value
to a variable that is never returned. -/
theorem get_repository_pointer_always_empty (e : Element) :
    get_repository_pointer e = [] := by
  rw [get_repository_pointer]
  have h : ∀ (l : List Element) (st : PyStr × PyStr),
      (l.foldl (fun st child =>
        if child.get_tag = GEDCOM_TAG_REPOSITORY then (st.1, child.get_value) else st)
        st).1 = st.1 := by
    intro l
    induction l with
    | nil => intro st; rfl
    | cons x xs ih =>
        intro st
        rw [List.foldl_cons]
        by_cases hx : x.get_tag = GEDCOM_TAG_REPOSITORY
        · rw [if_pos hx, ih]
        · rw [if_neg hx, ih]
  exact h _ _

theorem splitlines_go_head_length :
    ∀ (s cur : PyStr) (skip : Bool) (l : PyStr) (ls : List PyStr),
      splitlines_go s cur skip = l :: ls →
      l.length ≤ cur.length + s.length ∧
        (s.any is_line_break = true → l.length < cur.length + s.length)
  | [], cur, skip, l, ls, h => by
      rw [splitlines_go] at h
      by_cases hcur : cur = []
      · rw [if_pos hcur] at h
        exact absurd h (by simp)
      · rw [if_neg hcur] at h
        simp only [List.cons.injEq] at h
        obtain ⟨hh1, hh2⟩ := h
        subst hh1
        constructor
        · simp
        · intro ha; simp at ha
  | c :: rest, cur, skip, l, ls, h => by
      rw [splitlines_go] at h
      split_ifs at h with h1 h2 h3
      · have ih := splitlines_go_head_length rest cur false l ls h
        refine ⟨le_trans ih.1 (by simp only [List.length_cons]; omega),
          fun _ => lt_of_le_of_lt ih.1 (by simp only [List.length_cons]; omega)⟩
      · simp only [List.cons.injEq] at h
        obtain ⟨hh1, hh2⟩ := h
        subst hh1
        refine ⟨?_, fun _ => ?_⟩ <;> simp only [List.length_reverse, List.length_cons] <;>
          omega
      · simp only [List.cons.injEq] at h
        obtain ⟨hh1, hh2⟩ := h
        subst hh1
        refine ⟨?_, fun _ => ?_⟩ <;> simp only [List.length_reverse, List.length_cons] <;>
          omega
      · have ih := splitlines_go_head_length rest (c :: cur) false l ls h
        refine ⟨le_trans ih.1 (by simp only [List.length_cons]; omega), fun ha => ?_⟩
        have hrest : rest.any is_line_break = true := by
          simp only [List.any_cons, Bool.or_eq_true] at ha
          rcases ha with ha | ha
          · exact absurd ha h3
          · exact ha
        have hlt := ih.2 hrest
        simp only [List.length_cons] at hlt ⊢
        omega

theorem splitlines_head_lt (v line : PyStr) (rest : List PyStr)
    (h : splitlines v = line :: rest) (hb : v.any is_line_break = true) :
    line.length < v.length := by
  have hh := (splitlines_go_head_length v [] false line rest h).2 hb
  simpa using hh

/-- C10: constructing an element with the default multi_line flag
immediately applies the split to the constructor value: the stored value
is a take of the first physical line bounded by the empty-value budget,
and whenever the value contains a line break or exceeds that budget, the
stored value differs from the full constructor argument. -/
theorem element_init_splits (fuel : Nat) (level : Int) (pointer tag v crlf : PyStr)
    (e2 : Element)
    (h : element_init fuel level pointer tag v crlf true = some e2) :
    (∃ n, n ≤ available_characters (Element.mk level pointer tag [] crlf []) ∧
      e2.get_value = ((splitlines v).headD []).take n) ∧
    ((v.any is_line_break = true ∨
        available_characters (Element.mk level pointer tag [] crlf []) < v.length) →
      e2.get_value ≠ v) := by
  have h2 : set_multi_line_value fuel (Element.mk level pointer tag v crlf []) v =
      some e2 := by simpa [element_init] using h
  obtain ⟨hl, hp, ht, hc, hv, gen, hch, hprops, hflat⟩ :=
    set_multi_line_value_spec fuel _ v e2 h2
  have hpr : purge_reserved ((Element.mk level pointer tag v crlf []).set_value []) =
      Element.mk level pointer tag [] crlf [] := rfl
  rw [hpr] at hv
  constructor
  · rcases hsp : splitlines v with - | ⟨line, rest⟩
    · exact ⟨0, Nat.zero_le _, by simp [hv, hsp]⟩
    · refine ⟨line_length (Element.mk level pointer tag [] crlf []) line,
        line_length_le_avail _ _, ?_⟩
      simpa [hsp] using hv
  · intro hcase
    rcases hsp : splitlines v with - | ⟨line, rest⟩
    · have hv2 : e2.get_value = [] := by simpa [hsp] using hv
      have hvne : v ≠ [] := by
        rcases hcase with hb | hlen
        · intro hv0; subst hv0; simp at hb
        · intro hv0; subst hv0; simp at hlen
      rw [hv2]
      exact fun heq => hvne heq.symm
    · have hv2 : e2.get_value =
          line.take (line_length (Element.mk level pointer tag [] crlf []) line) := by
        simpa [hsp] using hv
      rw [hv2]
      intro heq
      have hlen_eq : (line.take
          (line_length (Element.mk level pointer tag [] crlf []) line)).length =
          v.length := by rw [heq]
      rw [List.length_take] at hlen_eq
      have hmin1 := min_le_left
        (line_length (Element.mk level pointer tag [] crlf []) line) line.length
      have hmin2 := min_le_right
        (line_length (Element.mk level pointer tag [] crlf []) line) line.length
      rcases hcase with hb | hlen
      · have hlt := splitlines_head_lt v line rest hsp hb
        omega
      · have hle := line_length_le_avail (Element.mk level pointer tag [] crlf []) line
        omega

/-- C10 (witness): constructing a level-0 NOTE element with the value made
of two three-letter lines leaves only the first line as the stored value,
which differs from the constructor argument. -/
theorem element_init_splits_witness :
    (∃ n, n ≤ available_characters (Element.mk 0 [] (pys "NOTE") [] (pys "\n") []) ∧
      (Element.mk 0 [] (pys "NOTE") (pys "abc") (pys "\n")
        [Element.mk 1 [] (pys "CONT") (pys "def") (pys "\n") []]).get_value =
        ((splitlines (pys "abc\ndef")).headD []).take n) ∧
    (Element.mk 0 [] (pys "NOTE") (pys "abc") (pys "\n")
      [Element.mk 1 [] (pys "CONT") (pys "def") (pys "\n") []]).get_value ≠
      pys "abc\ndef" := by
  have h := element_init_splits 50 0 [] (pys "NOTE") (pys "abc\ndef") (pys "\n")
    (Element.mk 0 [] (pys "NOTE") (pys "abc") (pys "\n")
      [Element.mk 1 [] (pys "CONT") (pys "def") (pys "\n") []]) (by rfl)
  exact ⟨h.1, h.2 (Or.inl (by decide))⟩
